import Mathlib

/-!
# Verification of the mcp-wallet core against its specification

Shallow embedding of the relevant parts of the `mcp-wallet` repository
(crates `wallet-core`, `openapi-parser`, `mcp-server`) in Lean 4, and
theorems settling the frozen claims about it.

Conventions:
* Rust byte strings (`&[u8]`, `Vec<u8>`) are `List Nat` with each element a
  byte value; Rust `String`/`&str` values are `List Char` when the claim is
  about their characters, or `List Nat` (their UTF-8 bytes) when the claim
  is about their bytes.
* Fallible Rust functions returning `Result<T, WalletError>` become
  `Except WErr T`; functions that can panic become `Option`.
* Randomness (nonces, salts) is passed in as explicit arguments.
* The AES-256-GCM primitive lives in the external `aes_gcm` crate; it is
  modelled by its structure (CTR keystream XOR plus a recomputed
  authentication tag), parameterised over the key-dependent keystream and
  tag functions.
-/

/-- Error kinds of `wallet-core` (`src/crates/wallet-core/src/error.rs`),
restricted to the variants the claims exercise. -/
inductive WErr where
  | walletLocked
  | walletNotInitialized
  | invalidPassword
  | invalidSession
  | sessionExpired
  | encryptionError
  | decryptionError
  | storageError
  | credentialNotFound
  deriving DecidableEq, Repr

instance {e a : Type} [DecidableEq e] [DecidableEq a] : DecidableEq (Except e a) :=
  fun x y =>
    match x, y with
    | .ok u, .ok v => if h : u = v then isTrue (by rw [h]) else isFalse (by simp [h])
    | .error u, .error v => if h : u = v then isTrue (by rw [h]) else isFalse (by simp [h])
    | .ok _, .error _ => isFalse (by simp)
    | .error _, .ok _ => isFalse (by simp)

/-! ## AEAD model (`crypto/encryption.rs` over the `aes_gcm` crate)

`EncryptedData` mirrors the Rust struct: a 12-byte IV, a 16-byte tag and a
ciphertext.  AES-256-GCM is CTR-mode encryption (XOR with a key- and
nonce-derived keystream) together with an authentication tag computed over
the ciphertext; decryption recomputes the tag, compares, and XORs the same
keystream back.  The keystream and tag derivations are opaque parameters
(`AeadModel`); every theorem proved about the model holds for the actual
AES-based instantiation. -/

/-- `EncryptedData` (`crypto/encryption.rs`): IV, auth tag, ciphertext,
each a list of bytes. -/
structure EncData where
  iv : List Nat
  tag : List Nat
  ct : List Nat
  deriving DecidableEq, Repr

/-- The two key-dependent primitives of AES-256-GCM: the CTR keystream
(`ks key iv i` is the keystream byte at offset `i`) and the authentication
tag over a ciphertext. -/
structure AeadModel where
  ks : List Nat → List Nat → Nat → Nat
  tagF : List Nat → List Nat → List Nat → List Nat

/-- XOR a byte list with the keystream `f`, starting at offset `i`
(CTR-mode body shared by GCM seal and open). -/
def xorKs (f : Nat → Nat) : Nat → List Nat → List Nat
  | _, [] => []
  | i, b :: rest => (b ^^^ f i) :: xorKs f (i + 1) rest

/-- `encrypt` (`crypto/encryption.rs` lines 92-123): CTR-encrypt the
plaintext under `key` with the caller-supplied random IV and attach the
authentication tag, yielding an `EncryptedData`. -/
def encryptD (A : AeadModel) (key iv p : List Nat) : EncData :=
  let ct := xorKs (A.ks key iv) 0 p
  { iv := iv, tag := A.tagF key iv ct, ct := ct }

/-- `decrypt` (`crypto/encryption.rs` lines 139-152): recompute the tag
over the stored ciphertext under `key`, fail with `DecryptionError` on
mismatch, otherwise XOR the keystream back. -/
def decryptD (A : AeadModel) (e : EncData) (key : List Nat) : Except WErr (List Nat) :=
  if e.tag = A.tagF key e.iv e.ct then
    Except.ok (xorKs (A.ks key e.iv) 0 e.ct)
  else
    Except.error WErr.decryptionError

theorem xorKs_xorKs (f : Nat → Nat) (i : Nat) (l : List Nat) :
    xorKs f i (xorKs f i l) = l := by
  induction l generalizing i with
  | nil => rfl
  | cons b rest ih => simp [xorKs, Nat.xor_cancel_right, ih]

theorem decryptD_encryptD (A : AeadModel) (m iv p : List Nat) :
    decryptD A (encryptD A m iv p) m = Except.ok p := by
  simp [encryptD, decryptD, xorKs_xorKs]

/-- **C2.** For every key `m` and plaintext byte string `p` (and any IV and
any instantiation of the GCM keystream/tag primitives), decrypting the
result of `encrypt(p, m)` under the same key `m` succeeds and returns
exactly `p`. -/
theorem encrypt_decrypt_roundtrip (A : AeadModel) (m iv p : List Nat) :
    decryptD A (encryptD A m iv p) m = Except.ok p :=
  decryptD_encryptD A m iv p

/-! ## UTF-8 (Rust `std`: `String::from_utf8_lossy`, `String::from_utf8`)

`EncryptedFileStorage::store` passes raw bytes through
`String::from_utf8_lossy` before encrypting, and `decrypt_string` runs
`String::from_utf8` on the decrypted bytes.  Both are modelled over byte
lists, following the UTF-8 byte-range table and the "substitution of
maximal subparts" policy Rust's lossy conversion implements: an invalid
sequence's maximal valid prefix is consumed and replaced by U+FFFD
(bytes `EF BF BD`). -/

/-- A UTF-8 continuation byte (`0x80..=0xBF`). -/
def isCont (b : Nat) : Bool := 0x80 ≤ b && b ≤ 0xBF

/-- Allowed second byte for a three-byte lead `b` (`E0..=EF`). -/
def utf8Snd3 (b c : Nat) : Bool :=
  if b = 0xE0 then 0xA0 ≤ c && c ≤ 0xBF
  else if b = 0xED then 0x80 ≤ c && c ≤ 0x9F
  else isCont c

/-- Allowed second byte for a four-byte lead `b` (`F0..=F4`). -/
def utf8Snd4 (b c : Nat) : Bool :=
  if b = 0xF0 then 0x90 ≤ c && c ≤ 0xBF
  else if b = 0xF4 then 0x80 ≤ c && c ≤ 0x8F
  else isCont c

/-- Consume one UTF-8 sequence (or maximal subpart of an invalid one)
starting at byte `b` with remaining input `rest`.  Returns the consumed
bytes, whether they form a valid sequence, and the remaining input. -/
def utf8Chunk (b : Nat) (rest : List Nat) : List Nat × Bool × List Nat :=
  if b < 0x80 then ([b], true, rest)
  else if 0xC2 ≤ b ∧ b ≤ 0xDF then
    match rest with
    | [] => ([b], false, [])
    | c :: r => if isCont c then ([b, c], true, r) else ([b], false, rest)
  else if 0xE0 ≤ b ∧ b ≤ 0xEF then
    match rest with
    | [] => ([b], false, [])
    | c :: r =>
      if utf8Snd3 b c then
        match r with
        | [] => ([b, c], false, [])
        | d :: r' => if isCont d then ([b, c, d], true, r') else ([b, c], false, r)
      else ([b], false, rest)
  else if 0xF0 ≤ b ∧ b ≤ 0xF4 then
    match rest with
    | [] => ([b], false, [])
    | c :: r =>
      if utf8Snd4 b c then
        match r with
        | [] => ([b, c], false, [])
        | d :: r' =>
          if isCont d then
            match r' with
            | [] => ([b, c, d], false, [])
            | e :: r'' => if isCont e then ([b, c, d, e], true, r'') else ([b, c, d], false, r')
          else ([b, c], false, r)
      else ([b], false, rest)
  else ([b], false, rest)

/-- Fuel-indexed body of `String::from_utf8_lossy` followed by
re-encoding: valid sequences pass through, invalid maximal subparts are
replaced by the U+FFFD bytes `EF BF BD`.  `fuel` only serves termination;
any `fuel ≥ l.length` yields the same result. -/
def utf8LossyF : Nat → List Nat → List Nat
  | _, [] => []
  | 0, l => l
  | fuel + 1, b :: rest =>
    let t := utf8Chunk b rest
    (if t.2.1 then t.1 else [0xEF, 0xBF, 0xBD]) ++ utf8LossyF fuel t.2.2

/-- The UTF-8 bytes of `String::from_utf8_lossy` applied to `l`. -/
def utf8Lossy (l : List Nat) : List Nat := utf8LossyF l.length l

/-- Fuel-indexed UTF-8 validity check (the acceptance condition of
`String::from_utf8`). -/
def utf8ValidF : Nat → List Nat → Bool
  | _, [] => true
  | 0, _ => false
  | fuel + 1, b :: rest =>
    let t := utf8Chunk b rest
    t.2.1 && utf8ValidF fuel t.2.2

/-- Whether `l` is valid UTF-8. -/
def utf8Valid (l : List Nat) : Bool := utf8ValidF l.length l

theorem utf8Chunk_append (b : Nat) (rest : List Nat) :
    (utf8Chunk b rest).1 ++ (utf8Chunk b rest).2.2 = b :: rest := by
  unfold utf8Chunk
  repeat' split
  all_goals simp_all

theorem utf8Chunk_rem_le (b : Nat) (rest : List Nat) :
    (utf8Chunk b rest).2.2.length ≤ rest.length := by
  unfold utf8Chunk
  repeat' split
  all_goals simp_all
  all_goals omega

theorem utf8Chunk_shape (b : Nat) (rest : List Nat) :
    ∃ tl, (utf8Chunk b rest).1 = b :: tl := by
  have happ := utf8Chunk_append b rest
  have hle := utf8Chunk_rem_le b rest
  rcases hchunk : (utf8Chunk b rest).1 with _ | ⟨hd, tl⟩
  · rw [hchunk] at happ
    simp at happ
    rw [happ] at hle
    simp at hle
  · rw [hchunk] at happ
    simp at happ
    exact ⟨tl, by rw [happ.1]⟩

theorem utf8Chunk_refeed (b : Nat) (rest chunk rem : List Nat)
    (h : utf8Chunk b rest = (chunk, true, rem)) (B : List Nat) :
    utf8Chunk b (chunk.tail ++ B) = (chunk, true, B) := by
  unfold utf8Chunk at h
  repeat' split at h
  all_goals (injection h with h1 h23; injection h23 with h2 h3)
  all_goals (try (exfalso; exact Bool.false_ne_true h2))
  all_goals subst h1
  all_goals simp_all [utf8Chunk]
  all_goals (repeat rw [if_neg (by omega)])

theorem utf8Chunk_invalid_ne (b : Nat) (rest chunk rem : List Nat)
    (h : utf8Chunk b rest = (chunk, false, rem)) (X : List Nat) :
    chunk ++ rem ≠ 0xEF :: 0xBF :: 0xBD :: X := by
  intro hEq
  unfold utf8Chunk at h
  repeat' split at h
  all_goals (injection h with h1 h23; injection h23 with h2 h3)
  all_goals subst h1
  all_goals subst h3
  all_goals simp_all [isCont, utf8Snd3, utf8Snd4]

theorem utf8Chunk_repl (B : List Nat) :
    utf8Chunk 0xEF (0xBF :: 0xBD :: B) = ([0xEF, 0xBF, 0xBD], true, B) := by
  simp [utf8Chunk, utf8Snd3, isCont]

theorem utf8ValidF_fuel (fuel : Nat) : ∀ (fuel' : Nat) (l : List Nat),
    l.length ≤ fuel → l.length ≤ fuel' → utf8ValidF fuel l = utf8ValidF fuel' l := by
  induction fuel with
  | zero =>
    intro fuel' l h _
    have hl : l = [] := List.length_eq_zero.mp (Nat.le_zero.mp h)
    subst hl
    cases fuel' <;> rfl
  | succ n ih =>
    intro fuel' l h h'
    cases l with
    | nil => cases fuel' <;> rfl
    | cons b rest =>
      cases fuel' with
      | zero => simp at h'
      | succ m =>
        simp only [utf8ValidF]
        have hle := utf8Chunk_rem_le b rest
        simp only [List.length_cons] at h h'
        rw [ih m (utf8Chunk b rest).2.2 (by omega) (by omega)]

theorem utf8LossyF_fuel (fuel : Nat) : ∀ (fuel' : Nat) (l : List Nat),
    l.length ≤ fuel → l.length ≤ fuel' → utf8LossyF fuel l = utf8LossyF fuel' l := by
  induction fuel with
  | zero =>
    intro fuel' l h _
    have hl : l = [] := List.length_eq_zero.mp (Nat.le_zero.mp h)
    subst hl
    cases fuel' <;> rfl
  | succ n ih =>
    intro fuel' l h h'
    cases l with
    | nil => cases fuel' <;> rfl
    | cons b rest =>
      cases fuel' with
      | zero => simp at h'
      | succ m =>
        simp only [utf8LossyF]
        have hle := utf8Chunk_rem_le b rest
        simp only [List.length_cons] at h h'
        rw [ih m (utf8Chunk b rest).2.2 (by omega) (by omega)]

theorem utf8Lossy_of_valid (l : List Nat) (hv : utf8Valid l = true) :
    utf8Lossy l = l := by
  suffices h : ∀ (fuel : Nat) (l : List Nat), l.length ≤ fuel →
      utf8ValidF fuel l = true → utf8LossyF fuel l = l by
    exact h l.length l le_rfl hv
  intro fuel
  induction fuel with
  | zero =>
    intro l h _
    have hl : l = [] := List.length_eq_zero.mp (Nat.le_zero.mp h)
    subst hl; rfl
  | succ n ih =>
    intro l h hv
    cases l with
    | nil => rfl
    | cons b rest =>
      simp only [utf8ValidF, Bool.and_eq_true] at hv
      simp only [utf8LossyF, hv.1, if_true]
      have hle := utf8Chunk_rem_le b rest
      simp only [List.length_cons] at h
      rw [ih (utf8Chunk b rest).2.2 (by omega) hv.2]
      exact utf8Chunk_append b rest

theorem utf8Lossy_ne_of_invalid (l : List Nat) (hv : utf8Valid l = false) :
    utf8Lossy l ≠ l := by
  suffices h : ∀ (fuel : Nat) (l : List Nat), l.length ≤ fuel →
      utf8ValidF fuel l = false → utf8LossyF fuel l ≠ l by
    exact h l.length l le_rfl hv
  intro fuel
  induction fuel with
  | zero =>
    intro l h hv
    have hl : l = [] := List.length_eq_zero.mp (Nat.le_zero.mp h)
    subst hl; simp [utf8ValidF] at hv
  | succ n ih =>
    intro l h hv hEq
    cases l with
    | nil => simp [utf8ValidF] at hv
    | cons b rest =>
      simp only [utf8ValidF, Bool.and_eq_false_iff] at hv
      have hle := utf8Chunk_rem_le b rest
      simp only [List.length_cons] at h
      rcases hc : utf8Chunk b rest with ⟨chunk, ok, rem⟩
      rw [hc] at hv
      simp only [utf8LossyF, hc] at hEq
      have happ : chunk ++ rem = b :: rest := by
        have := utf8Chunk_append b rest
        rw [hc] at this
        exact this
      have hrle : rem.length ≤ rest.length := by
        have := utf8Chunk_rem_le b rest
        rw [hc] at this
        exact this
      cases ok with
      | true =>
        simp only [if_true] at hEq
        rw [← happ] at hEq
        have hrem : utf8LossyF n rem = rem := List.append_cancel_left hEq
        rcases hv with hv | hv
        · simp at hv
        · exact ih rem (by omega) hv hrem
      | false =>
        simp only [Bool.false_eq_true, if_false] at hEq
        rw [← happ] at hEq
        exact utf8Chunk_invalid_ne b rest chunk rem hc (utf8LossyF n rem) hEq.symm

theorem utf8Lossy_eq_iff (l : List Nat) : utf8Lossy l = l ↔ utf8Valid l = true := by
  cases hv : utf8Valid l with
  | true => simp [utf8Lossy_of_valid l hv]
  | false => simp [utf8Lossy_ne_of_invalid l hv]

theorem utf8Valid_chunk_append (b : Nat) (rest chunk rem : List Nat)
    (h : utf8Chunk b rest = (chunk, true, rem)) (B : List Nat) :
    utf8Valid (chunk ++ B) = utf8Valid B := by
  obtain ⟨tl, htl⟩ := utf8Chunk_shape b rest
  rw [h] at htl
  subst htl
  have href := utf8Chunk_refeed b rest (b :: tl) rem h B
  simp only [List.tail_cons] at href
  show utf8ValidF ((b :: tl) ++ B).length ((b :: tl) ++ B) = utf8Valid B
  have hstep : ((b :: tl) ++ B) = b :: (tl ++ B) := by simp
  rw [hstep]
  have hlen : (b :: (tl ++ B)).length = (tl ++ B).length + 1 := by simp
  rw [hlen]
  simp only [utf8ValidF, href, Bool.true_and]
  exact utf8ValidF_fuel (tl ++ B).length B.length B (by simp) le_rfl

theorem utf8Valid_lossy (l : List Nat) : utf8Valid (utf8Lossy l) = true := by
  suffices h : ∀ (fuel : Nat) (l : List Nat), l.length ≤ fuel →
      utf8Valid (utf8LossyF fuel l) = true by
    exact h l.length l le_rfl
  intro fuel
  induction fuel with
  | zero =>
    intro l h
    have hl : l = [] := List.length_eq_zero.mp (Nat.le_zero.mp h)
    subst hl; rfl
  | succ n ih =>
    intro l h
    cases l with
    | nil => rfl
    | cons b rest =>
      simp only [List.length_cons] at h
      rcases hc : utf8Chunk b rest with ⟨chunk, ok, rem⟩
      have hrle : rem.length ≤ rest.length := by
        have := utf8Chunk_rem_le b rest
        rw [hc] at this
        exact this
      cases ok with
      | true =>
        simp only [utf8LossyF, hc, if_true]
        rw [utf8Valid_chunk_append b rest chunk rem hc (utf8LossyF n rem)]
        exact ih rem (by omega)
      | false =>
        simp only [utf8LossyF, hc, Bool.false_eq_true, if_false]
        rw [utf8Valid_chunk_append 0xEF [0xBF, 0xBD] [0xEF, 0xBF, 0xBD] []
          (utf8Chunk_repl []) (utf8LossyF n rem)]
        exact ih rem (by omega)

/-! ## Association lists

Model of the in-memory `HashMap`s (storage cache, namespace-tree
children): `assocGet` is `get`, `assocSet` is insert-or-replace. -/

def assocGet {α β : Type} [DecidableEq α] (l : List (α × β)) (k : α) : Option β :=
  match l with
  | [] => none
  | (k', v) :: rest => if k' = k then some v else assocGet rest k

def assocSet {α β : Type} [DecidableEq α] (l : List (α × β)) (k : α) (v : β) : List (α × β) :=
  match l with
  | [] => [(k, v)]
  | (k', v') :: rest => if k' = k then (k, v) :: rest else (k', v') :: assocSet rest k v

theorem assocGet_assocSet {α β : Type} [DecidableEq α] (l : List (α × β)) (k : α) (v : β) :
    assocGet (assocSet l k v) k = some v := by
  induction l with
  | nil => simp [assocGet, assocSet]
  | cons p rest ih =>
    obtain ⟨k', v'⟩ := p
    by_cases h : k' = k <;> simp [assocGet, assocSet, h, ih]

theorem assocGet_assocSet_ne {α β : Type} [DecidableEq α] (l : List (α × β)) (k k' : α)
    (v : β) (h : k' ≠ k) : assocGet (assocSet l k v) k' = assocGet l k' := by
  induction l with
  | nil => simp [assocGet, assocSet, Ne.symm h]
  | cons p rest ih =>
    obtain ⟨k'', v''⟩ := p
    by_cases h2 : k'' = k <;> by_cases h3 : k'' = k' <;>
      simp_all [assocGet, assocSet, Ne.symm h]

/-! ## UTF-8 encoding of `String`s

Rust `&str` values carry UTF-8 bytes; `utf8Encode` maps a character list
to those bytes (`str::as_bytes`). -/

/-- The UTF-8 bytes of one Unicode scalar value. -/
def utf8EncodeChar (c : Char) : List Nat :=
  let n := c.toNat
  if n < 0x80 then [n]
  else if n < 0x800 then [0xC0 + n / 64, 0x80 + n % 64]
  else if n < 0x10000 then [0xE0 + n / 4096, 0x80 + (n / 64) % 64, 0x80 + n % 64]
  else [0xF0 + n / 262144, 0x80 + (n / 4096) % 64, 0x80 + (n / 64) % 64, 0x80 + n % 64]

/-- UTF-8 bytes of a character list. -/
def utf8Encode (s : List Char) : List Nat := (s.map utf8EncodeChar).flatten

/-- UTF-8 bytes of a `String` (`str::as_bytes`). -/
def strBytes (s : String) : List Nat := utf8Encode s.data

/-- The fixed verification plaintext (`encrypted_file.rs`):
`"mcp-wallet-verification"`. -/
def verificationBytes : List Nat := strBytes "mcp-wallet-verification"

/-- `decrypt_string` (`crypto/encryption.rs` lines 155-160) over the
structural `EncData` form: AEAD-decrypt, then apply the `String::from_utf8`
validity check; plaintext strings are kept as their UTF-8 bytes. -/
def decryptStringB (A : AeadModel) (e : EncData) (key : List Nat) : Except WErr (List Nat) :=
  match decryptD A e key with
  | .error err => .error err
  | .ok bytes => if utf8Valid bytes then .ok bytes else .error .decryptionError

/-! ## Encrypted file storage (`storage/encrypted_file.rs`)

The storage state bundles the on-disk artifacts (`salt`, `verify`,
`wallet.json` entries), the in-memory cache with its dirty flag, and the
current master key.  Blobs are kept in the structural `EncData` form (the
`iv:tag:ct` hex serialization is a bijection on well-formed blobs and is
not involved in any claim). -/

structure StorageS where
  saltFile : Option String
  verifyFile : Option EncData
  diskEntries : Option (List (String × EncData))
  cacheEntries : List (String × EncData)
  dirty : Bool
  masterKey : Option (List Nat)
  deriving DecidableEq, Repr

/-- `set_master_key`. -/
def setMasterKeyS (st : StorageS) (k : Option (List Nat)) : StorageS :=
  { st with masterKey := k }

/-- `str::trim`: drop leading and trailing whitespace (structurally
recursive model of the Rust/Lean string-trim primitive). -/
def trimStr (s : String) : String :=
  String.mk (((s.data.dropWhile Char.isWhitespace).reverse.dropWhile Char.isWhitespace).reverse)

/-- `load_salt`: read the salt file and trim whitespace. -/
def loadSaltS (st : StorageS) : Option String := st.saltFile.map trimStr

/-- `save_salt`. -/
def saveSaltS (st : StorageS) (salt : String) : StorageS :=
  { st with saltFile := some salt }

/-- `save_verification`: encrypt the fixed plaintext under the current
master key (with the given random IV) and write the `verify` file. -/
def saveVerificationS (A : AeadModel) (iv : List Nat) (st : StorageS) : Except WErr StorageS :=
  match st.masterKey with
  | none => .error .walletLocked
  | some k => .ok { st with verifyFile := some (encryptD A k iv verificationBytes) }

/-- Whether decrypting a verification blob under `k` yields the fixed
plaintext (the match inside `verify_key`). -/
def verifyBlob (A : AeadModel) (e : EncData) (k : List Nat) : Bool :=
  match decryptStringB A e k with
  | .ok s => s = verificationBytes
  | .error _ => false

/-- `verify_key` (`encrypted_file.rs` lines 189-218). -/
def verifyKeyS (A : AeadModel) (st : StorageS) : Except WErr Bool :=
  match st.verifyFile with
  | none => .ok false
  | some e =>
    match st.masterKey with
    | none => .error WErr.walletLocked
    | some k => .ok (verifyBlob A e k)

/-- `load` (`encrypted_file.rs` lines 108-125): refresh the cache from the
disk entries; no-op when `wallet.json` does not exist. -/
def loadS (st : StorageS) : StorageS :=
  match st.diskEntries with
  | none => st
  | some es => { st with cacheEntries := es, dirty := false }

/-- `save` (`encrypted_file.rs` lines 128-150): write the cached blobs to
disk verbatim when dirty (note: no re-encryption happens here). -/
def saveS (st : StorageS) : StorageS :=
  if st.dirty then { st with diskEntries := some st.cacheEntries } else st

/-- `store` (`encrypted_file.rs` lines 233-256): lossy-convert the value
bytes to a string, encrypt under the master key with the given random IV,
insert into the cache, mark dirty, persist. -/
def storeS (A : AeadModel) (iv : List Nat) (st : StorageS) (key : String)
    (value : List Nat) : Except WErr StorageS :=
  match st.masterKey with
  | none => .error WErr.walletLocked
  | some mk =>
    let enc := encryptD A mk iv (utf8Lossy value)
    .ok (saveS { st with cacheEntries := assocSet st.cacheEntries key enc, dirty := true })

/-- `retrieve` (`encrypted_file.rs` lines 258-276): decrypt the cached
blob under the master key; `none` when the key is absent from the cache. -/
def retrieveS (A : AeadModel) (st : StorageS) (key : String) :
    Except WErr (Option (List Nat)) :=
  match st.masterKey with
  | none => .error WErr.walletLocked
  | some mk =>
    match assocGet st.cacheEntries key with
    | some e =>
      match decryptStringB A e mk with
      | .ok bytes => .ok (some bytes)
      | .error err => .error err
    | none => .ok none

/-- **C10.** For every stored byte value: `retrieve(key)` after
`store(key, value)` succeeds and returns the lossy-converted bytes of the
value, and those bytes equal the original input exactly when the input is
valid UTF-8 — the store/retrieve round-trip is exact iff the value is
valid UTF-8 (invalid sequences having been replaced by U+FFFD). -/
theorem store_retrieve_roundtrip (A : AeadModel) (iv : List Nat) (st : StorageS)
    (key : String) (value mk : List Nat) (h : st.masterKey = some mk) :
    ∃ st', storeS A iv st key value = .ok st' ∧
      retrieveS A st' key = .ok (some (utf8Lossy value)) ∧
      (utf8Lossy value = value ↔ utf8Valid value = true) := by
  have hstore : storeS A iv st key value = .ok (saveS { st with
      cacheEntries := assocSet st.cacheEntries key (encryptD A mk iv (utf8Lossy value)),
      dirty := true }) := by
    simp [storeS, h]
  refine ⟨_, hstore, ?_, utf8Lossy_eq_iff value⟩
  simp [saveS, retrieveS, h, assocGet_assocSet, decryptStringB, decryptD_encryptD,
    utf8Valid_lossy]

/-- Concrete AEAD instantiation for witnesses: zero keystream, and the
authentication tag is the key itself (so decryption under a different key
fails the tag check). -/
def awit : AeadModel := ⟨fun _ _ _ => 0, fun k _ _ => k⟩

/-- Concrete storage state for the C10 witness. -/
def stWit : StorageS :=
  { saltFile := none, verifyFile := none, diskEntries := none,
    cacheEntries := [], dirty := false, masterKey := some [7] }

theorem store_retrieve_roundtrip_witness :
    ∃ st', storeS awit [] stWit "k" [0xFF, 0x41] = .ok st' ∧
      retrieveS awit st' "k" = .ok (some (utf8Lossy [0xFF, 0x41])) ∧
      (utf8Lossy [0xFF, 0x41] = [0xFF, 0x41] ↔ utf8Valid [0xFF, 0x41] = true) :=
  store_retrieve_roundtrip awit [] stWit "k" [0xFF, 0x41] [7] rfl

/-! ## Wallet façade (`wallet.rs`)

State machine over the storage model.  `derive` stands for
`derive_key` (Argon2id, external crate): a deterministic function of
password and salt.  Randomness (`generate_salt`, encryption IVs) is passed
in explicitly.  Rust methods on `&mut self` returning `Result<()>` become
functions returning the updated wallet paired with an optional error,
since mutations made before an early return persist. -/

/-- `WalletState` (`wallet.rs` lines 15-23). -/
inductive WalletStateS where
  | notInitialized
  | locked
  | unlocked
  deriving DecidableEq, Repr

/-- The wallet fields the claims exercise: the storage handle, the
credential manager's master-key copy, the wallet's own master-key copy,
and the lifecycle state. -/
structure WalletS where
  storage : StorageS
  credKey : Option (List Nat)
  walletKey : Option (List Nat)
  state : WalletStateS
  deriving DecidableEq, Repr

/-- `Wallet::unlock` (`wallet.rs` lines 136-174): forbidden when not
initialized, idempotent when unlocked; otherwise load the salt, derive the
candidate key, install it, verify; on failure clear the key and return
`InvalidPassword`; on success load the cache, install the key in the
credential manager and the wallet, and transition to `Unlocked`. -/
def unlockS (A : AeadModel) (derive : String → String → List Nat)
    (w : WalletS) (pw : String) : WalletS × Option WErr :=
  if w.state = WalletStateS.notInitialized then (w, some WErr.walletNotInitialized)
  else if w.state = WalletStateS.unlocked then (w, none)
  else match loadSaltS w.storage with
    | none => (w, some WErr.walletNotInitialized)
    | some salt =>
      let key := derive pw salt
      let st1 := setMasterKeyS w.storage (some key)
      match verifyKeyS A st1 with
      | .error e => ({ w with storage := st1 }, some e)
      | .ok false => ({ w with storage := setMasterKeyS st1 none }, some WErr.invalidPassword)
      | .ok true =>
        ({ w with
            storage := loadS st1
            credKey := some key
            walletKey := some key
            state := WalletStateS.unlocked }, none)

/-- `Wallet::change_password` (`wallet.rs` lines 295-329): verify the old
password via a fresh derivation, generate a new salt (`newSalt`), derive
the new key, overwrite salt and verifier, install the new key in storage
and the credential manager.  The stored entry blobs are not touched: the
source comment claims re-encryption "is handled by the storage layer on
save", but `save` writes the cached blobs verbatim. -/
def changePasswordS (A : AeadModel) (derive : String → String → List Nat)
    (newSalt : String) (newIv : List Nat) (w : WalletS) (old new : String) :
    WalletS × Option WErr :=
  if w.state = WalletStateS.notInitialized then (w, some WErr.walletNotInitialized)
  else match loadSaltS w.storage with
    | none => (w, some WErr.walletNotInitialized)
    | some salt =>
      let oldKey := derive old salt
      let st1 := setMasterKeyS w.storage (some oldKey)
      match verifyKeyS A st1 with
      | .error e => ({ w with storage := st1 }, some e)
      | .ok false => ({ w with storage := setMasterKeyS st1 none }, some WErr.invalidPassword)
      | .ok true =>
        let newKey := derive new newSalt
        let st2 := setMasterKeyS (saveSaltS st1 newSalt) (some newKey)
        match saveVerificationS A newIv st2 with
        | .error e => ({ w with storage := st2 }, some e)
        | .ok st3 => ({ w with storage := st3, credKey := some newKey }, none)

/-- **C8.** For a locked, initialized wallet and a password whose derived
key fails verification, `unlock` returns `InvalidPassword`, clears the
master key from storage and leaves the wallet `Locked`; a subsequent
unlock with a password whose derived key verifies still succeeds and
transitions to `Unlocked`. -/
theorem unlock_wrong_password (A : AeadModel) (derive : String → String → List Nat)
    (w : WalletS) (bad good salt : String) (vblob : EncData)
    (hstate : w.state = WalletStateS.locked)
    (hsalt : loadSaltS w.storage = some salt)
    (hverify : w.storage.verifyFile = some vblob)
    (hfail : verifyBlob A vblob (derive bad salt) = false)
    (hok : verifyBlob A vblob (derive good salt) = true) :
    (unlockS A derive w bad).2 = some WErr.invalidPassword ∧
    (unlockS A derive w bad).1.storage.masterKey = none ∧
    (unlockS A derive w bad).1.state = WalletStateS.locked ∧
    (unlockS A derive (unlockS A derive w bad).1 good).2 = none ∧
    (unlockS A derive (unlockS A derive w bad).1 good).1.state = WalletStateS.unlocked := by
  have hsalt' : Option.map trimStr w.storage.saltFile = some salt := hsalt
  have hbad : unlockS A derive w bad =
      ({ w with storage := setMasterKeyS (setMasterKeyS w.storage (some (derive bad salt))) none },
        some WErr.invalidPassword) := by
    simp [unlockS, hstate, hsalt', loadSaltS, verifyKeyS, setMasterKeyS, hverify, hfail]
  rw [hbad]
  refine ⟨rfl, by simp [setMasterKeyS], hstate, ?_, ?_⟩ <;>
    simp [unlockS, hstate, hsalt', loadSaltS, setMasterKeyS, verifyKeyS, hverify, hok]

/-- Concrete key-derivation function for witnesses: the password's UTF-8
bytes (deterministic in the password, as Argon2id is for a fixed salt). -/
def deriveWit : String → String → List Nat := fun pw _ => strBytes pw

/-- Verification blob for the C8 witness wallet: the fixed plaintext
encrypted under the key derived from password `"a"`. -/
def vblobWit : EncData := encryptD awit (strBytes "a") [] verificationBytes

/-- C8 witness wallet: initialized (salt and verifier present) and locked. -/
def wWit : WalletS where
  storage :=
    { saltFile := some ""
      verifyFile := some vblobWit
      diskEntries := none
      cacheEntries := []
      dirty := false
      masterKey := none }
  credKey := none
  walletKey := none
  state := WalletStateS.locked

theorem unlock_wrong_password_witness :
    (unlockS awit deriveWit wWit "b").2 = some WErr.invalidPassword ∧
    (unlockS awit deriveWit wWit "b").1.storage.masterKey = none ∧
    (unlockS awit deriveWit wWit "b").1.state = WalletStateS.locked ∧
    (unlockS awit deriveWit (unlockS awit deriveWit wWit "b").1 "a").2 = none ∧
    (unlockS awit deriveWit (unlockS awit deriveWit wWit "b").1 "a").1.state
      = WalletStateS.unlocked :=
  unlock_wrong_password awit deriveWit wWit "b" "a" "" vblobWit rfl (by decide) rfl
    (by decide) (by decide)

/-- Verification blob for the C1 wallet: fixed plaintext under the key
derived from password `"old"`. -/
def vblobOldWit : EncData := encryptD awit (strBytes "old") [] verificationBytes

/-- A stored credential entry, AEAD-encrypted under the key derived from
the old password `"old"`. -/
def entryBlobWit : EncData := encryptD awit (strBytes "old") [] (strBytes "sec")

/-- C1 wallet: initialized with password `"old"`, holding one stored
entry, currently locked. -/
def wCpWit : WalletS where
  storage :=
    { saltFile := some ""
      verifyFile := some vblobOldWit
      diskEntries := some [("credential:c", entryBlobWit)]
      cacheEntries := [("credential:c", entryBlobWit)]
      dirty := false
      masterKey := none }
  credKey := none
  walletKey := none
  state := WalletStateS.locked

/-- **C1 (falsified by the code).** `change_password(old, new)` completes
successfully, yet the stored entry's AEAD blob is left byte-for-byte
unchanged (still under the old key) while the installed master key is the
new one, so retrieving the previously stored entry now fails with
`DecryptionError` instead of decrypting — the claimed re-encryption of
stored entries never happens. -/
theorem change_password_skips_reencryption :
    (changePasswordS awit deriveWit "ns" [] wCpWit "old" "new").2 = none ∧
    (changePasswordS awit deriveWit "ns" [] wCpWit "old" "new").1.storage.cacheEntries
      = [("credential:c", entryBlobWit)] ∧
    (changePasswordS awit deriveWit "ns" [] wCpWit "old" "new").1.storage.diskEntries
      = some [("credential:c", entryBlobWit)] ∧
    (changePasswordS awit deriveWit "ns" [] wCpWit "old" "new").1.storage.masterKey
      = some (strBytes "new") ∧
    retrieveS awit (changePasswordS awit deriveWit "ns" [] wCpWit "old" "new").1.storage
      "credential:c" = .error WErr.decryptionError := by
  decide

/-! ## Session manager (`session.rs`) -/

/-- `Session` (`session.rs` lines 16-26): token, master key encrypted
under the token bytes, expiry as unix seconds, and an id. -/
structure SessionS where
  token : String
  encrypted_master_key : EncData
  expires_at : Nat
  session_id : String
  deriving DecidableEq, Repr

/-- `Session::is_expired` (`session.rs` lines 109-115): `now` is strictly
past `expires_at`. -/
def isExpiredS (s : SessionS) (now : Nat) : Bool := now > s.expires_at

/-- `SessionManager::load_session` (`session.rs` lines 152-169) over the
parsed session file: missing file yields `None`; an expired session is
deleted (`clear_session`) and yields `None`; otherwise the session is
returned.  The result pairs the returned value with the session-file state
afterwards. -/
def loadSessionS (file : Option SessionS) (now : Nat) :
    Except WErr (Option SessionS) × Option SessionS :=
  match file with
  | none => (.ok none, none)
  | some s =>
    if isExpiredS s now then (.ok none, none)
    else (.ok (some s), some s)

/-- **C4.** For every persisted session whose `expires_at` lies strictly
in the past at load time, loading deletes the session file and the caller
observes `None` — never an expired session object. -/
theorem load_session_expired (s : SessionS) (now : Nat) (h : s.expires_at < now) :
    loadSessionS (some s) now = (.ok none, none) := by
  simp [loadSessionS, isExpiredS, h]

/-- Concrete session for the C4 witness. -/
def sessWit : SessionS :=
  { token := "t", encrypted_master_key := { iv := [], tag := [], ct := [] },
    expires_at := 5, session_id := "id" }

theorem load_session_expired_witness :
    loadSessionS (some sessWit) 6 = (.ok none, none) :=
  load_session_expired sessWit 6 (by decide)

/-! ## MCP tool generator (`mcp-server/src/tools/generator.rs`) -/

/-- Whether a character belongs to the allowed class `[a-zA-Z0-9_.-]`
(`c.is_ascii_alphanumeric() || c == '_' || c == '.' || c == '-'`). -/
def isToolNameChar (c : Char) : Bool :=
  c.isAlphanum || c = '_' || c = '.' || c = '-'

/-- `sanitize_property_name` (`generator.rs` lines 12-32): replace every
character outside the class with `'_'`, truncate to 64, map the empty
string to `"param"`.  Character count equals byte count here because every
character of the mapped string is ASCII. -/
def sanitizePropertyName (name : List Char) : List Char :=
  let sanitized := name.map (fun c => if isToolNameChar c then c else '_')
  if sanitized.length > 64 then sanitized.take 64
  else if sanitized = [] then "param".data
  else sanitized

/-- **C7.** `sanitize_property_name` returns a string of length between 1
and 64 whose characters all lie in `[a-zA-Z0-9_.-]` (i.e. it matches
the pattern `[a-zA-Z0-9_.-]` repeated 1 to 64 times), and the empty input
maps to `"param"`. -/
theorem sanitize_property_name_spec (name : List Char) :
    1 ≤ (sanitizePropertyName name).length ∧
    (sanitizePropertyName name).length ≤ 64 ∧
    (∀ c ∈ sanitizePropertyName name, isToolNameChar c = true) ∧
    sanitizePropertyName [] = "param".data := by
  have hmap : ∀ c ∈ name.map (fun c => if isToolNameChar c then c else '_'),
      isToolNameChar c = true := by
    intro c hc
    obtain ⟨a, _, ha⟩ := List.mem_map.mp hc
    subst ha
    by_cases hv : isToolNameChar a = true
    · rw [if_pos hv]
      exact hv
    · rw [if_neg hv]
      decide
  have hparam : ∀ c ∈ ("param".data : List Char), isToolNameChar c = true := by decide
  refine ⟨?_, ?_, ?_, by decide⟩ <;> simp only [sanitizePropertyName]
  · split
    · rename_i h1
      simp only [List.length_take]
      omega
    · split
      · decide
      · rename_i h1 h2
        exact List.length_pos.mpr h2
  · split
    · simp [List.length_take]
    · split
      · decide
      · rename_i h1 h2
        omega
  · intro c hc
    revert hc
    split
    · intro hc
      exact hmap c (List.mem_of_mem_take hc)
    · split
      · intro hc
        exact hparam c hc
      · intro hc
        exact hmap c hc

/-! ## Operation-id normalization (`openapi-parser/src/operations.rs`)

Unicode case predicates and mappings (`char::is_uppercase`,
`char::is_lowercase`, `char::to_lowercase().next().unwrap()`) are modelled
by the ASCII `Char` operations; operation ids are ASCII identifiers. -/

/-- The character loop of `normalize_operation_id` (`operations.rs` lines
126-150), carrying the `prev_was_lowercase` flag. -/
def normGo : List Char → Bool → List Char
  | [], _ => []
  | c :: rest, prev =>
    if c = '_' ∨ c = '-' then '.' :: normGo rest false
    else if c.isUpper && prev then '.' :: c.toLower :: normGo rest true
    else c.toLower :: normGo rest c.isLower

/-- `OperationExtractor::normalize_operation_id`. -/
def normalizeOperationId (s : List Char) : List Char := normGo s false

/-- The claim's transform, read literally: `'_'`/`'-'` become `'.'`, and a
`'.'` is inserted before an uppercase character exactly when the preceding
input character is lowercase (a lowercase-to-uppercase transition); all
output is lowercased. -/
def claimNormGo : List Char → Option Char → List Char
  | [], _ => []
  | c :: rest, prevc =>
    if c = '_' ∨ c = '-' then '.' :: claimNormGo rest (some c)
    else if c.isUpper && (match prevc with | some p => p.isLower | none => false) then
      '.' :: c.toLower :: claimNormGo rest (some c)
    else c.toLower :: claimNormGo rest (some c)

/-- The claim's transform on a whole operation id. -/
def claimNormalize (s : List Char) : List Char := claimNormGo s none

/-- **C5 counterexample.** On `"aBC"` the code inserts a dot before every
character of the uppercase run (`"a.b.c"`), while the claimed
character-by-character transform, which inserts a dot only at a
lowercase-to-uppercase transition of the input, yields `"a.bc"`. -/
theorem normalize_operation_id_counterexample :
    normalizeOperationId "aBC".data = "a.b.c".data ∧
    claimNormalize "aBC".data = "a.bc".data ∧
    normalizeOperationId "aBC".data ≠ claimNormalize "aBC".data := by
  decide

/-- The amended transform: a `'.'` is inserted before an uppercase
character when the previous character was lowercase, or was itself an
uppercase character that received a `'.'`; the state records the previous
character together with whether it was dotted. -/
def amendNormGo : List Char → Option (Char × Bool) → List Char
  | [], _ => []
  | c :: rest, prev =>
    if c = '_' ∨ c = '-' then '.' :: amendNormGo rest (some (c, false))
    else if c.isUpper && (match prev with
        | some (p, pd) => p.isLower || (p.isUpper && pd)
        | none => false) then
      '.' :: c.toLower :: amendNormGo rest (some (c, true))
    else c.toLower :: amendNormGo rest (some (c, false))

/-- The amended transform on a whole operation id. -/
def amendNormalize (s : List Char) : List Char := amendNormGo s none

theorem normGo_eq_amendNormGo (s : List Char) : ∀ (prev : Option (Char × Bool)),
    normGo s (match prev with
      | some (p, pd) => p.isLower || (p.isUpper && pd)
      | none => false) = amendNormGo s prev := by
  induction s with
  | nil => intro prev; rfl
  | cons c rest ih =>
    intro prev
    simp only [normGo, amendNormGo]
    by_cases h1 : c = '_' ∨ c = '-'
    · rw [if_pos h1, if_pos h1]
      have := ih (some (c, false))
      rcases h1 with h1 | h1 <;> subst h1 <;> simp_all
    · rw [if_neg h1, if_neg h1]
      by_cases h2 : (c.isUpper && (match prev with
          | some (p, pd) => p.isLower || (p.isUpper && pd)
          | none => false)) = true
      · rw [if_pos h2, if_pos h2]
        have hup : c.isUpper = true := ((Bool.and_eq_true _ _).mp h2).1
        have := ih (some (c, true))
        simp only [hup, Bool.true_and, Bool.or_true] at this
        by_cases hlo : c.isLower = true <;> simp_all
      · rw [if_neg h2, if_neg h2]
        have := ih (some (c, false))
        simp only [Bool.and_false, Bool.or_false] at this
        simp_all

/-- **C5 (amended).** `normalize_operation_id` maps `'_'`/`'-'` to `'.'`,
lowercases everything, and inserts `'.'` before an uppercase character
that follows a lowercase character or a dotted uppercase character (so an
uppercase run after a lowercase letter gets a dot before each of its
characters); in particular `createCustomer ↦ create.customer` and
`create_customer ↦ create.customer`. -/
theorem normalize_operation_id_amended :
    (∀ s : List Char, normalizeOperationId s = amendNormalize s) ∧
    normalizeOperationId "createCustomer".data = "create.customer".data ∧
    normalizeOperationId "create_customer".data = "create.customer".data := by
  refine ⟨fun s => ?_, by decide, by decide⟩
  have := normGo_eq_amendNormGo s none
  simpa [normalizeOperationId, amendNormalize] using this

/-! ## Schema resolver (`openapi-parser/src/resolver.rs`)

`serde_json::Value` becomes the `Json` inductive; objects are ordered
field lists (`IndexMap`).  `resolve_with_depth(schema, depth)` returns the
schema unchanged once `depth > max_depth = 10` and otherwise recurses with
`depth + 1` into the referenced schema and into `properties` / `items` /
`additionalProperties` / `allOf` / `oneOf` / `anyOf`.  It is embedded via
the remaining budget `11 - depth`, which makes it structurally recursive —
in particular the resolver is a total function even on cyclic `$ref`
definitions. -/

inductive Json where
  | null
  | bool (b : Bool)
  | num (n : Int)
  | str (s : String)
  | arr (elems : List Json)
  | obj (fields : List (String × Json))

/-- `resolve_ref` (`resolver.rs` lines 66-75): only local refs under
`#/components/schemas/` resolve, by lookup in the component schemas. -/
def resolveRef (schemas : List (String × Json)) (refStr : String) : Option Json :=
  if refStr.startsWith "#/components/schemas/" then
    assocGet schemas (refStr.drop "#/components/schemas/".length)
  else none

/-- The `$ref` short-circuit of `resolve_with_depth` (lines 36-43): the
object must contain a `"$ref"` key holding a string that resolves. -/
def refTarget (schemas : List (String × Json)) (fields : List (String × Json)) : Option Json :=
  match assocGet fields "$ref" with
  | some (Json.str r) => resolveRef schemas r
  | _ => none

/-- `resolve_with_depth` with `fuel = 11 - depth` remaining budget
(`fuel = 0` iff `depth > max_depth`); every recursive call of the source
uses `depth + 1`, i.e. budget `fuel - 1`.  `resolve_properties` and
`resolve_array` (lines 77-99) are inlined at their call sites. -/
def resolveAux (schemas : List (String × Json)) : Nat → Json → Json
  | 0, s => s
  | fuel + 1, s =>
    match s with
    | Json.obj fields =>
      match refTarget schemas fields with
      | some resolved => resolveAux schemas fuel resolved
      | none =>
        Json.obj (fields.map (fun kv =>
          (kv.1,
            if kv.1 = "properties" then
              match kv.2 with
              | Json.obj props =>
                Json.obj (props.map (fun pkv => (pkv.1, resolveAux schemas fuel pkv.2)))
              | _ => kv.2
            else if kv.1 = "items" then resolveAux schemas fuel kv.2
            else if kv.1 = "additionalProperties" then
              match kv.2 with
              | Json.obj _ => resolveAux schemas fuel kv.2
              | _ => kv.2
            else if kv.1 = "allOf" ∨ kv.1 = "oneOf" ∨ kv.1 = "anyOf" then
              match kv.2 with
              | Json.arr xs => Json.arr (xs.map (resolveAux schemas fuel))
              | _ => kv.2
            else kv.2)))
    | _ => s

/-- `SchemaResolver::resolve_with_depth` (`resolver.rs` lines 28-64). -/
def resolveWithDepth (schemas : List (String × Json)) (schema : Json) (depth : Nat) : Json :=
  resolveAux schemas (11 - depth) schema

/-- `SchemaResolver::resolve` (`resolver.rs` lines 24-26). -/
def resolveS (schemas : List (String × Json)) (schema : Json) : Json :=
  resolveWithDepth schemas schema 0

/-- **C9.** The schema resolver terminates on every schema and every set
of component schemas, cyclic `$ref`s included (`resolveAux` is a total
structurally recursive function), and beyond the depth limit 10 it
returns the sub-schema unchanged rather than panicking or expanding. -/
theorem resolve_depth_limit (schemas : List (String × Json)) (s : Json) (depth : Nat)
    (h : depth > 10) : resolveWithDepth schemas s depth = s := by
  unfold resolveWithDepth
  have h0 : 11 - depth = 0 := by omega
  rw [h0]
  rfl

/-- Mutually recursive component schemas for the C9 witness: `A`
references itself. -/
def cycSchemas : List (String × Json) :=
  [("A", Json.obj [("$ref", Json.str "#/components/schemas/A")])]

/-- A schema referencing the cyclic component `A`. -/
def cycSchema : Json := Json.obj [("$ref", Json.str "#/components/schemas/A")]

theorem resolve_depth_limit_witness :
    resolveWithDepth cycSchemas cycSchema 11 = cycSchema :=
  resolve_depth_limit cycSchemas cycSchema 11 (by decide)

/-! ## Namespace tree (`openapi-parser/src/namespace.rs`)

Operations carry the fields `OperationRef` copies; `normalized_id` is kept
as a character list so that splitting on `'.'` (Rust `str::split('.')`)
can be defined structurally. -/

/-- `HttpMethod` (`openapi-parser/src/types.rs`). -/
inductive HttpMethodS where
  | get | post | put | patch | delete | head | options | trace
  deriving DecidableEq, Repr

/-- The `ApiOperation` fields involved in namespace indexing. -/
structure ApiOperationS where
  operation_id : String
  normalized_id : List Char
  method : HttpMethodS
  path : String
  deriving DecidableEq, Repr

/-- `OperationRef` (`namespace.rs` lines 17-27). -/
structure OperationRefS where
  operation_id : String
  method : HttpMethodS
  path : String
  index : Nat
  deriving DecidableEq, Repr

/-- `NamespaceTree` (`namespace.rs` lines 8-14): children keyed by
segment, plus an optional operation at this node. -/
inductive NamespaceTreeS where
  | node (children : List (List Char × NamespaceTreeS)) (operation : Option OperationRefS)

/-- `NamespaceTree::new` / `Default`. -/
def emptyTreeS : NamespaceTreeS := NamespaceTreeS.node [] none

/-- Rust `str::split('.')` over characters: always at least one (possibly
empty) segment. -/
def splitDot : List Char → List (List Char)
  | [] => [[]]
  | c :: rest =>
    if c = '.' then [] :: splitDot rest
    else
      match splitDot rest with
      | s :: ss => (c :: s) :: ss
      | [] => [[c]]

/-- Rejoin dot-separated segments (inverse of `splitDot`). -/
def joinDot : List (List Char) → List Char
  | [] => []
  | [s] => s
  | s :: ss => s ++ '.' :: joinDot ss

theorem splitDot_ne_nil (l : List Char) : splitDot l ≠ [] := by
  cases l with
  | nil => simp [splitDot]
  | cons c rest =>
    simp only [splitDot]
    split
    · simp
    · split <;> simp

theorem joinDot_splitDot (l : List Char) : joinDot (splitDot l) = l := by
  induction l with
  | nil => rfl
  | cons c rest ih =>
    simp only [splitDot]
    split
    · rename_i h
      subst h
      rcases hs : splitDot rest with _ | ⟨s, ss⟩
      · exact absurd hs (splitDot_ne_nil rest)
      · rw [hs] at ih
        cases ss with
        | nil => simp_all [joinDot]
        | cons s2 ss2 => simp_all [joinDot]
    · rcases hs : splitDot rest with _ | ⟨s, ss⟩
      · exact absurd hs (splitDot_ne_nil rest)
      · rw [hs] at ih
        cases ss with
        | nil => simp_all [joinDot]
        | cons s2 ss2 => simp_all [joinDot]

theorem splitDot_injective (a b : List Char) (h : splitDot a = splitDot b) : a = b := by
  have ha := joinDot_splitDot a
  have hb := joinDot_splitDot b
  rw [← ha, ← hb, h]

/-- `NamespaceTree::insert_parts` (`namespace.rs` lines 60-72): walk or
create child nodes along the segments and store the ref at the terminal
(`children.entry(...).or_default()` is get-or-create plus replace). -/
def insertParts : NamespaceTreeS → List (List Char) → OperationRefS → NamespaceTreeS
  | NamespaceTreeS.node children _, [], op => NamespaceTreeS.node children (some op)
  | NamespaceTreeS.node children op0, p :: rest, op =>
    let child := (assocGet children p).getD emptyTreeS
    NamespaceTreeS.node (assocSet children p (insertParts child rest op)) op0

/-- `NamespaceTree::insert` (`namespace.rs` lines 55-58). -/
def insertT (t : NamespaceTreeS) (path : List Char) (op : OperationRefS) : NamespaceTreeS :=
  insertParts t (splitDot path) op

/-- `NamespaceTree::lookup_parts` (`namespace.rs` lines 80-88). -/
def lookupParts : NamespaceTreeS → List (List Char) → Option OperationRefS
  | NamespaceTreeS.node _ op, [] => op
  | NamespaceTreeS.node children _, p :: rest =>
    match assocGet children p with
    | some child => lookupParts child rest
    | none => none

/-- `NamespaceTree::lookup` (`namespace.rs` lines 75-78). -/
def lookupT (t : NamespaceTreeS) (path : List Char) : Option OperationRefS :=
  lookupParts t (splitDot path)

/-- The enumerated insertion loop of `NamespaceTree::build`
(`namespace.rs` lines 36-52), carrying the running index. -/
def buildGo : List ApiOperationS → Nat → NamespaceTreeS → NamespaceTreeS
  | [], _, t => t
  | op :: rest, i, t =>
    buildGo rest (i + 1)
      (insertT t op.normalized_id
        { operation_id := op.operation_id, method := op.method, path := op.path, index := i })

/-- `NamespaceTree::build`. -/
def buildT (ops : List ApiOperationS) : NamespaceTreeS :=
  buildGo ops 0 emptyTreeS

theorem lookupParts_empty (parts : List (List Char)) :
    lookupParts emptyTreeS parts = none := by
  cases parts <;> simp [lookupParts, emptyTreeS, assocGet]

theorem lookupParts_insertParts_self (parts : List (List Char)) :
    ∀ (t : NamespaceTreeS) (op : OperationRefS),
    lookupParts (insertParts t parts op) parts = some op := by
  induction parts with
  | nil =>
    intro t op
    cases t
    simp [insertParts, lookupParts]
  | cons p rest ih =>
    intro t op
    cases t with
    | node children op0 =>
      simp only [insertParts, lookupParts, assocGet_assocSet]
      exact ih _ op

theorem lookupParts_insertParts_ne (parts : List (List Char)) :
    ∀ (parts' : List (List Char)) (t : NamespaceTreeS) (op : OperationRefS),
    parts' ≠ parts →
    lookupParts (insertParts t parts op) parts' = lookupParts t parts' := by
  induction parts with
  | nil =>
    intro parts' t op hne
    cases t with
    | node children op0 =>
      cases parts' with
      | nil => exact absurd rfl hne
      | cons q rest' => simp [insertParts, lookupParts]
  | cons p rest ih =>
    intro parts' t op hne
    cases t with
    | node children op0 =>
      cases parts' with
      | nil => simp [insertParts, lookupParts]
      | cons q rest' =>
        simp only [insertParts, lookupParts]
        by_cases hq : q = p
        · subst hq
          have hrest : rest' ≠ rest := by
            intro hr
            exact hne (by rw [hr])
          rw [assocGet_assocSet]
          rcases hchild : assocGet children q with _ | child
          · simp only [Option.getD_none]
            show lookupParts (insertParts emptyTreeS rest op) rest' = none
            rw [ih rest' emptyTreeS op hrest, lookupParts_empty]
          · simp only [Option.getD_some]
            show lookupParts (insertParts child rest op) rest' = lookupParts child rest'
            exact ih rest' child op hrest
        · rw [assocGet_assocSet_ne _ _ _ _ hq]

theorem buildGo_preserve (ops : List ApiOperationS) :
    ∀ (i : Nat) (t : NamespaceTreeS) (parts : List (List Char)),
    (∀ op ∈ ops, splitDot op.normalized_id ≠ parts) →
    lookupParts (buildGo ops i t) parts = lookupParts t parts := by
  induction ops with
  | nil => intro i t parts _; rfl
  | cons op rest ih =>
    intro i t parts hne
    simp only [buildGo]
    rw [ih (i + 1) _ parts (fun o ho => hne o (List.mem_cons_of_mem _ ho))]
    exact lookupParts_insertParts_ne (splitDot op.normalized_id) parts t _
      (Ne.symm (hne op (List.mem_cons_self _ _)))

theorem buildGo_lookup (ops : List ApiOperationS) :
    ∀ (i : Nat) (t : NamespaceTreeS),
    (ops.map (fun o => o.normalized_id)).Nodup →
    ∀ (k : Nat) (hk : k < ops.length),
    lookupParts (buildGo ops i t) (splitDot (ops.get ⟨k, hk⟩).normalized_id) =
      some { operation_id := (ops.get ⟨k, hk⟩).operation_id,
             method := (ops.get ⟨k, hk⟩).method,
             path := (ops.get ⟨k, hk⟩).path,
             index := i + k } := by
  induction ops with
  | nil =>
    intro i t _ k hk
    simp at hk
  | cons op rest ih =>
    intro i t hnd k hk
    simp only [List.map_cons, List.nodup_cons] at hnd
    simp only [buildGo]
    cases k with
    | zero =>
      have hne : ∀ o ∈ rest, splitDot o.normalized_id ≠ splitDot op.normalized_id := by
        intro o ho heq
        have heq2 : o.normalized_id = op.normalized_id := splitDot_injective _ _ heq
        exact hnd.1 (heq2 ▸ List.mem_map_of_mem _ ho)
      have hop : (op :: rest).get ⟨0, hk⟩ = op := rfl
      rw [hop, buildGo_preserve rest (i + 1) _ _ hne]
      simpa [insertT] using
        lookupParts_insertParts_self (splitDot op.normalized_id) t
          { operation_id := op.operation_id, method := op.method, path := op.path, index := i }
    | succ k' =>
      have hk' : k' < rest.length := by simpa using hk
      have hrec := ih (i + 1)
        (insertT t op.normalized_id
          { operation_id := op.operation_id, method := op.method, path := op.path, index := i })
        hnd.2 k' hk'
      simpa [Nat.add_comm, Nat.add_assoc, Nat.add_left_comm] using hrec

/-- **C6 (amended).** For every operation list whose `normalized_id`s are
pairwise distinct, looking up the `k`-th operation's `normalized_id` in
the tree built from the list yields an `OperationRef` carrying that
operation's id, method and path, whose `index` field is `k` — it points
back to that same operation in the list.  (With duplicated
`normalized_id`s the last insertion wins, see the counterexample.) -/
theorem namespace_build_lookup (ops : List ApiOperationS)
    (hnd : (ops.map (fun o => o.normalized_id)).Nodup)
    (k : Nat) (hk : k < ops.length) :
    lookupT (buildT ops) (ops.get ⟨k, hk⟩).normalized_id =
      some { operation_id := (ops.get ⟨k, hk⟩).operation_id,
             method := (ops.get ⟨k, hk⟩).method,
             path := (ops.get ⟨k, hk⟩).path,
             index := k } := by
  have := buildGo_lookup ops 0 emptyTreeS hnd k hk
  simpa [buildT, lookupT] using this

/-- First operation of the C6 counterexample: normalizes to `"a"`. -/
def opDupA : ApiOperationS :=
  { operation_id := "opA", normalized_id := ['a'], method := HttpMethodS.get, path := "/a" }

/-- Second operation of the C6 counterexample: same `normalized_id`
`"a"`, different identity. -/
def opDupB : ApiOperationS :=
  { operation_id := "opB", normalized_id := ['a'], method := HttpMethodS.post, path := "/b" }

/-- The claim of C6 as stated, for a fixed operation list: every
operation's `normalized_id` looks up to a ref whose `index` points back to
that same operation. -/
def lookupClaim (ops : List ApiOperationS) : Prop :=
  ∀ (k : Nat) (hk : k < ops.length),
    ∃ r, lookupT (buildT ops) (ops.get ⟨k, hk⟩).normalized_id = some r ∧
      ops[r.index]? = some (ops.get ⟨k, hk⟩)

/-- **C6 counterexample.** With two distinct operations sharing the
normalized id `"a"`, the lookup for the first operation returns the ref
of the second (last insertion wins): the claim fails as stated. -/
theorem namespace_build_lookup_counterexample :
    ¬ lookupClaim [opDupA, opDupB] ∧
    lookupT (buildT [opDupA, opDupB]) opDupA.normalized_id =
      some { operation_id := "opB", method := HttpMethodS.post, path := "/b", index := 1 } := by
  constructor
  · intro hclaim
    obtain ⟨r, hr, hidx⟩ := hclaim 0 (by decide)
    have hB : lookupT (buildT [opDupA, opDupB])
        (([opDupA, opDupB].get ⟨0, by decide⟩).normalized_id) =
        some { operation_id := "opB", method := HttpMethodS.post, path := "/b", index := 1 } := by
      decide
    rw [hB] at hr
    injection hr with hr
    subst hr
    revert hidx
    decide
  · decide

/-- Distinct-id operation list for the C6 witness. -/
def opsWit : List ApiOperationS :=
  [{ operation_id := "createCustomer", normalized_id := "create.customer".data,
     method := HttpMethodS.post, path := "/v1/customers" },
   { operation_id := "getCustomer", normalized_id := "customer.get".data,
     method := HttpMethodS.get, path := "/v1/customers/x" }]

theorem namespace_build_lookup_witness :
    lookupT (buildT opsWit) (opsWit.get ⟨1, by decide⟩).normalized_id =
      some { operation_id := (opsWit.get ⟨1, by decide⟩).operation_id,
             method := (opsWit.get ⟨1, by decide⟩).method,
             path := (opsWit.get ⟨1, by decide⟩).path,
             index := 1 } :=
  namespace_build_lookup opsWit (by decide) 1 (by decide)

/-! ## Credential prefix (`credential/types.rs`, `credential/manager.rs`)

`Credential::new_api_key` (types.rs lines 56-73) and
`CredentialManager::update_value` (manager.rs lines 161-186) both compute
the display prefix as `format!("{}...", &api_key[..8])` when
`api_key.len() >= 8`, else `format!("{}...", api_key)`.  `len()` counts
BYTES and `[..8]` slices bytes, panicking when byte offset 8 is not a
character boundary; secrets are modelled by their UTF-8 bytes and the
panic by `none`. -/

/-- Rust `str::is_char_boundary`: the index equals the length, or the byte
at the index is not a continuation byte. -/
def isCharBoundary (bytes : List Nat) (i : Nat) : Bool :=
  if i = bytes.length then true
  else
    match bytes.drop i with
    | b :: _ => !(isCont b)
    | [] => false

/-- The prefix computation shared by `new_api_key` and `update_value`,
over the secret's UTF-8 bytes; `none` models the byte-slice panic. -/
def credentialPfx (apiKey : List Nat) : Option (List Nat) :=
  if apiKey.length ≥ 8 then
    if isCharBoundary apiKey 8 then some (apiKey.take 8 ++ strBytes "...")
    else none
  else some (apiKey ++ strBytes "...")

/-- The claim's prefix, over characters: the first 8 characters of the
secret when it has at least 8 characters, otherwise the whole secret,
followed by `"..."`. -/
def claimPfxChars (secret : List Char) : List Char :=
  if secret.length ≥ 8 then secret.take 8 ++ "...".data
  else secret ++ "...".data

/-- **C3 (falsified by the code).** The secret `"1234567é"` has 8
characters but 9 bytes with byte offset 8 inside the final character:
the claim prescribes the whole-secret prefix `"1234567é..."`, but the
byte slice `&secret[..8]` panics.  The secret `"ééééé"` has 5 characters
(10 bytes): the claim prescribes the whole secret followed by `"..."`,
but the code returns only its first 4 characters (8 bytes). -/
theorem credential_pfx_bug :
    credentialPfx (strBytes "1234567é") = none ∧
    utf8Encode (claimPfxChars "1234567é".data) = strBytes "1234567é..." ∧
    credentialPfx (strBytes "ééééé") = some (strBytes "éééé...") ∧
    utf8Encode (claimPfxChars "ééééé".data) = strBytes "ééééé..." ∧
    strBytes "éééé..." ≠ strBytes "ééééé..." := by
  decide
